import Mathlib

/-!
Verification of the LunaUI widget library (Menu and DataGrid components,
`src/menu/index.ts`).  The definitions below are a shallow embedding of the
TypeScript source: JS strings become `List Char`/`String`, JS numbers become
exact `Int`/`ℚ` values (JS doubles agree with this model on all quantities the
claims touch, which stay far below 2^53), the 32-bit truncation `| 0` is
modelled with an explicit `% 2^32`, and stateful methods become explicit state
passing.
-/

namespace LunaUI

/-! ### Natural order comparator (`naturalOrderComparator`, src/menu/index.ts:452-503) -/

/-- A JavaScript number as the comparator can produce one: an exact integer,
an infinity, or NaN.  (All finite numbers produced by `naturalOrderComparator`
are integers: numeric chunk values and length differences.) -/
inductive JsVal where
  | fin (z : Int)
  | pinf
  | ninf
  | nan
deriving DecidableEq, Repr

/-- ECMAScript StrWhiteSpace characters (WhiteSpace ∪ LineTerminator), the
characters `Number(string)` strips before parsing. -/
def isJsWhitespace (c : Char) : Bool :=
  c.toNat = 0x9 || c.toNat = 0xA || c.toNat = 0xB || c.toNat = 0xC ||
  c.toNat = 0xD || c.toNat = 0x20 || c.toNat = 0xA0 || c.toNat = 0x1680 ||
  (0x2000 ≤ c.toNat && c.toNat ≤ 0x200A) || c.toNat = 0x2028 ||
  c.toNat = 0x2029 || c.toNat = 0x202F || c.toNat = 0x205F ||
  c.toNat = 0x3000 || c.toNat = 0xFEFF

/-- Strip leading and trailing JS whitespace. -/
def jsTrim (s : List Char) : List Char :=
  ((s.dropWhile isJsWhitespace).reverse.dropWhile isJsWhitespace).reverse

/-- Value of a run of ASCII digits. -/
def digitsVal (s : List Char) : Int :=
  s.foldl (fun n c => 10 * n + ((c.toNat : Int) - 48)) 0

/-- ECMAScript `ToNumber` on the strings the comparator feeds to `isNaN`,
unary `+` and subtraction: the chunks of `/^\d+|^\D+/`, i.e. strings that are
either a nonempty ASCII digit run or digit-free.  A digit run has its exact
value (the source's doubles agree below 2^53); a digit-free string is a number
only when it trims to the empty string (value 0) or to a signed `Infinity`
literal — every other numeric literal form requires a digit. -/
def jsStrToNum (s : List Char) : JsVal :=
  if s ≠ [] ∧ s.all (·.isDigit) then .fin (digitsVal s)
  else
    let t := jsTrim s
    if t = [] then .fin 0
    else if t = "Infinity".data ∨ t = "+Infinity".data then .pinf
    else if t = "-Infinity".data then .ninf
    else .nan

/-- JS subtraction on such values. -/
def jsSub : JsVal → JsVal → JsVal
  | .nan, _ => .nan
  | _, .nan => .nan
  | .fin a, .fin b => .fin (a - b)
  | .fin _, .pinf => .ninf
  | .fin _, .ninf => .pinf
  | .pinf, .fin _ => .pinf
  | .ninf, .fin _ => .ninf
  | .pinf, .ninf => .pinf
  | .ninf, .pinf => .ninf
  | .pinf, .pinf => .nan
  | .ninf, .ninf => .nan

/-- JS truthiness of a number: `0` and `NaN` are falsy. -/
def jsTruthy : JsVal → Bool
  | .fin z => z ≠ 0
  | .nan => false
  | _ => true

/-- The chunk regex `/^\d+|^\D+/`: the maximal leading digit run if the string
starts with a digit, otherwise the maximal leading non-digit run. -/
def chunkOf (s : List Char) : List Char :=
  match s with
  | [] => []
  | c :: _ =>
    if c.isDigit then s.takeWhile (·.isDigit)
    else s.takeWhile (fun c => !c.isDigit)

/-- UTF-16 code units of a string: JS `<` on strings compares these. -/
def utf16Units (s : List Char) : List Nat :=
  s.foldr
    (fun c acc =>
      if c.toNat < 0x10000 then c.toNat :: acc
      else (0xD800 + (c.toNat - 0x10000) / 0x400) ::
           (0xDC00 + (c.toNat - 0x10000) % 0x400) :: acc)
    []

/-- Lexicographic order on code-unit sequences. -/
def lexLtNat : List Nat → List Nat → Bool
  | [], [] => false
  | [], _ :: _ => true
  | _ :: _, [] => false
  | a :: as, b :: bs => if a < b then true else if b < a then false else lexLtNat as bs

/-- JS `chunka < chunkb` on strings. -/
def jsLtChars (a b : List Char) : Bool := lexLtNat (utf16Units a) (utf16Units b)

/-- One iteration of the comparator's `while (true)` body after the emptiness
checks: either a returned value (`Sum.inl`) or the remainders after consuming
the matched chunks (`Sum.inr`), exactly following src/menu/index.ts:476-501. -/
def loopStep (a b : List Char) : JsVal ⊕ (List Char × List Char) :=
  let chunka := chunkOf a
  let chunkb := chunkOf b
  let na := jsStrToNum chunka
  let nb := jsStrToNum chunkb
  let anum := na ≠ JsVal.nan
  let bnum := nb ≠ JsVal.nan
  if anum ∧ ¬bnum then Sum.inl (.fin (-1))
  else if bnum ∧ ¬anum then Sum.inl (.fin 1)
  else if anum ∧ bnum then
    let diff := jsSub na nb
    if jsTruthy diff then Sum.inl diff
    else if chunka.length ≠ chunkb.length then
      if ¬jsTruthy na ∧ ¬jsTruthy nb then
        Sum.inl (.fin ((chunka.length : Int) - (chunkb.length : Int)))
      else Sum.inl (.fin ((chunkb.length : Int) - (chunka.length : Int)))
    else Sum.inr (a.drop chunka.length, b.drop chunkb.length)
  else if chunka ≠ chunkb then
    Sum.inl (if jsLtChars chunka chunkb then .fin (-1) else .fin 1)
  else Sum.inr (a.drop chunka.length, b.drop chunkb.length)

/-- The `while (true)` loop of `naturalOrderComparator`, with explicit fuel.
Each iteration first performs the source's emptiness checks
(src/menu/index.ts:466-475) and then runs `loopStep`. -/
def naturalLoop : Nat → List Char → List Char → Option JsVal
  | 0, _, _ => none
  | fuel + 1, a, b =>
    if a = [] then (if b = [] then some (.fin 0) else some (.fin (-1)))
    else if b = [] then some (.fin 1)
    else
      match loopStep a b with
      | Sum.inl r => some r
      | Sum.inr (a', b') => naturalLoop fuel a' b'

/-- The loop run with sufficient fuel (shown sufficient below). -/
def naturalCompare (a b : List Char) : JsVal :=
  (naturalLoop (a.length + b.length + 1) a b).getD (.fin 0)

/-- licia `startWith(s, '_')`. -/
def startsWithUnderscore (s : List Char) : Bool :=
  match s with
  | c :: _ => c = '_'
  | [] => false

/-- Function `naturalOrderComparator` (src/menu/index.ts:452-503): underscore rule, then
the chunking loop.  Inputs are already strings (`toStr` is the identity on
them). -/
def naturalOrderComparator (a b : String) : JsVal :=
  if startsWithUnderscore a.data ∧ ¬startsWithUnderscore b.data then .fin 1
  else if startsWithUnderscore b.data ∧ ¬startsWithUnderscore a.data then .fin (-1)
  else naturalCompare a.data b.data

/-! ### Column-weight layout (`applyColumnWeights`, src/menu/index.ts:344-374) -/

/-- ECMAScript `ToInt32`: truncated value mod 2^32, mapped to `[-2^31, 2^31)`. -/
def toInt32 (n : Int) : Int := (n + 2 ^ 31) % 2 ^ 32 - 2 ^ 31

/-- Truncation toward zero, as JS number-to-integer conversion does. -/
def ratTrunc (q : ℚ) : Int := if 0 ≤ q then ⌊q⌋ else -⌊-q⌋

/-- JS `x | 0`: ToInt32 of the truncation. -/
def jsOr0 (q : ℚ) : Int := toInt32 (ratTrunc q)

/-- The width-emitting loop of `applyColumnWeights`
(src/menu/index.ts:362-371): running weight sum `sum`, running pixel offset
`lastOffset`; each column's offset is `((sum * tableWidth) / sumOfWeights) | 0`
and its width `max (offset - lastOffset) 14`; the *unadjusted* offset is
carried to the next column. -/
def applyWeightsLoop (sumOfWeights : ℚ) (tableWidth : Int) :
    List ℚ → ℚ → Int → List Int
  | [], _, _ => []
  | w :: ws, sum, lastOffset =>
    let offset := jsOr0 ((sum + w) * (tableWidth : ℚ) / sumOfWeights)
    max (offset - lastOffset) 14 ::
      applyWeightsLoop sumOfWeights tableWidth ws (sum + w) offset

/-- The successive values taken by `offset` in the same loop. -/
def offsetsLoop (sumOfWeights : ℚ) (tableWidth : Int) : List ℚ → ℚ → List Int
  | [], _ => []
  | w :: ws, sum =>
    jsOr0 ((sum + w) * (tableWidth : ℚ) / sumOfWeights) ::
      offsetsLoop sumOfWeights tableWidth ws (sum + w)

/-- Function `applyColumnWeights`: early return when the container width is not
positive (src/menu/index.ts:348-351), else the emitted `<col>` widths. -/
def applyColumnWeights (weights : List ℚ) (tableWidth : Int) : List Int :=
  if tableWidth ≤ 0 then []
  else applyWeightsLoop weights.sum tableWidth weights 0 0

/-- The column boundary offsets computed by `applyColumnWeights`. -/
def applyColumnOffsets (weights : List ℚ) (tableWidth : Int) : List Int :=
  if tableWidth ≤ 0 then [] else offsetsLoop weights.sum tableWidth weights 0

/-- Idealized target offsets named by the spec:
`floor(prefixWeightSum_i * containerWidth / totalWeight)` for `i = 1..n`. -/
def targetOffsets (weights : List ℚ) (tableWidth : Int) : List Int :=
  (List.range weights.length).map fun i =>
    ⌊(weights.take (i + 1)).sum * (tableWidth : ℚ) / weights.sum⌋

/-! ### Weight inference (`updateWeights`, src/menu/index.ts:324-343) -/

/-- The DataGrid state `updateWeights` reads and writes: the
`columnWidthsInitialized` flag and each column's `weight` (`none` =
no weight assigned yet). -/
structure GridWeights where
  columnWidthsInitialized : Bool
  weights : List (Option ℚ)
deriving DecidableEq, Repr

/-- JS `!column.weight`: true for `undefined` and for `0`. -/
def weightFalsy : Option ℚ → Bool
  | none => true
  | some q => q = 0

/-- The inference loop body: a column with a falsy weight gets
`(100 * thWidth) / tableWidth` from its header cell's rendered width. -/
def inferWeights (tableWidth : Nat) (thWidth : Nat → Nat) :
    Nat → List (Option ℚ) → List (Option ℚ)
  | _, [] => []
  | i, w :: ws =>
    (if weightFalsy w then some ((100 * (thWidth i : ℚ)) / (tableWidth : ℚ)) else w) ::
      inferWeights tableWidth thWidth (i + 1) ws

/-- One `updateWeights` call observing container width `tableWidth` and header
cell widths `thWidth`: inference runs only when the flag is unset and the
width is truthy, and then sets the flag (src/menu/index.ts:329-340).  The
trailing `applyColumnWeights` call touches neither field. -/
def updateWeights (st : GridWeights) (tableWidth : Nat) (thWidth : Nat → Nat) :
    GridWeights :=
  if st.columnWidthsInitialized = false ∧ tableWidth ≠ 0 then
    { columnWidthsInitialized := true
      weights := inferWeights tableWidth thWidth 0 st.weights }
  else st

/-- A sequence of resize-driven `updateWeights` calls. -/
def runUpdates (events : List (Nat × (Nat → Nat))) (st : GridWeights) : GridWeights :=
  events.foldl (fun s e => updateWeights s e.1 e.2) st

/-! ### Sorting (`sortNodes` and the header click handler, src/menu/index.ts:284-323) -/

/-- The comparator application inside `nodes.sort`
(src/menu/index.ts:319): ascending applies `comparator(aVal, bVal)`,
descending applies `comparator(bVal, aVal)`. -/
def sortCompare {α β : Type} (comparator : α → α → β) (isAscending : Bool)
    (a b : α) : β :=
  if isAscending then comparator a b else comparator b a

/-- JS `Array.prototype.sort` with a comparator: a stable sort placing `a`
no later than `b` when `cmp a b ≤ 0`, modelled by insertion sort. -/
def jsSort {β : Type} (cmp : β → β → Int) (l : List β) : List β :=
  List.insertionSort (fun a b => cmp a b ≤ 0) l

/-- Function `sortNodes` (src/menu/index.ts:311-323): pick the column's comparator or
the default, sort the nodes on the values `node.data[id]`, with the
ascending/descending argument swap.  `data` reads a row's value for a column
id and `columnCmp`/`defaultCmp` model `column.comparator ||
naturalOrderComparator`. -/
def sortNodes {ρ α : Type} (data : ρ → Nat → α)
    (columnCmp : Nat → Option (α → α → Int)) (defaultCmp : α → α → Int)
    (id : Nat) (isAscending : Bool) (nodes : List ρ) : List ρ :=
  let comparator := (columnCmp id).getD defaultCmp
  jsSort (fun a b => sortCompare comparator isAscending (data a id) (data b id)) nodes

/-- A header's `data-order` attribute value. -/
inductive SortOrder where
  | ascending
  | descending
deriving DecidableEq, Repr

/-- Header sort state and row order: `orders i` is column `i`'s `data-order`
attribute (`none` = attribute absent), `nodes` the current row order. -/
structure GridSortState (ρ : Type) where
  orders : Nat → Option SortOrder
  nodes : List ρ

/-- The sortable-header click handler (src/menu/index.ts:290-309) for column
`id` whose effective comparator is `cmp id`: read `data-order`, ascending
unless it is `descending`, store the flipped order, sort, and remove
`data-order` from every other header. -/
def clickHeader {ρ α : Type} (data : ρ → Nat → α) (cmp : Nat → α → α → Int)
    (id : Nat) (st : GridSortState ρ) : GridSortState ρ :=
  let order := st.orders id
  let isAscending : Bool := decide (order ≠ some SortOrder.descending)
  { orders := fun i =>
      if i = id then
        some (if isAscending then SortOrder.descending else SortOrder.ascending)
      else none
    nodes := jsSort
      (fun a b => sortCompare (cmp id) isAscending (data a id) (data b id))
      st.nodes }

/-! ### Menu positioning (`positionContent`, src/menu/index.ts:43-86) -/

/-- The CSS box `positionContent` assigns. -/
structure MenuPos where
  left : Int
  top : Int
  width : Int
  height : Int
deriving DecidableEq, Repr

/-- Function `positionContent` (src/menu/index.ts:43-86).  `parent` is the parent
menu's container width when there is a parent menu, `none` otherwise. -/
def positionContent (x y winWidth winHeight scrollbarSize offsetWidth offsetHeight : Int)
    (parent : Option Int) : MenuPos :=
  let parentWidth := parent.getD 0
  let widthOverflow := if winHeight < offsetHeight then scrollbarSize else 0
  let heightOverflow := if winWidth < offsetWidth then scrollbarSize else 0
  let width := min winWidth (offsetWidth + widthOverflow)
  let height := min winHeight (offsetHeight + heightOverflow)
  let right := winWidth - x
  let bottom := winHeight - y
  let left := if right < width ∧ x - parentWidth > right then x - width - parentWidth else x
  let top :=
    if bottom < height then
      if y > height then y - height + (if parent.isSome then 30 else 0)
      else y - (height - bottom)
    else y
  { left := left, top := top, width := width, height := height }

/-! ### Submenu state (`showSubMenu`/`hideSubMenu`/`createMenuItem` mouseover,
src/menu/index.ts:87-102 and 128-138) -/

/-- One menu level's submenu state: `subMenu` is the `this.subMenu` field
(`none` when unset) and `attached` lists the child menus whose containers are
currently in the DOM. -/
structure MenuState where
  subMenu : Option Nat
  attached : List Nat
deriving DecidableEq, Repr

/-- Method `hideSubMenu` (src/menu/index.ts:97-102): if a submenu is referenced,
`subMenu.hide()` detaches its container and the field is deleted. -/
def hideSubMenu (st : MenuState) : MenuState :=
  match st.subMenu with
  | some m => { subMenu := none, attached := st.attached.erase m }
  | none => st

/-- Method `showSubMenu` (src/menu/index.ts:87-96): `subMenu.show(...)` first hides
the submenu's own container (`show` begins with `this.hide()`), then attaches
it; then `this.subMenu` is set. -/
def showSubMenu (m : Nat) (st : MenuState) : MenuState :=
  { subMenu := some m, attached := m :: st.attached.erase m }

/-- The item `mouseover` handler (src/menu/index.ts:128-138): `item` is the
hovered item's submenu reference (`none` for an item without one). -/
def mouseOverItem (item : Option Nat) (st : MenuState) : MenuState :=
  match item with
  | some m => showSubMenu m (if st.subMenu ≠ some m then hideSubMenu st else st)
  | none => hideSubMenu st

/-- A freshly shown menu: no submenu referenced, none attached. -/
def menuInit : MenuState := { subMenu := none, attached := [] }

/-- State after a sequence of hover events. -/
def runMouse (events : List (Option Nat)) : MenuState :=
  events.foldl (fun st e => mouseOverItem e st) menuInit

/-- The submenu invariant: at most one child attached, and only the one the
`subMenu` field references. -/
def menuInv (st : MenuState) : Prop :=
  st.attached.length ≤ 1 ∧ ∀ m ∈ st.attached, st.subMenu = some m

/-! ## Lemmas about the comparator loop -/

theorem jsTruthy_fin (v : Int) : jsTruthy (.fin v) = decide (v ≠ 0) := rfl

/-- The numeric-tie branch of `loopStep`: both chunks numeric with the same
finite value but different lengths.  The source returns
`chunka.length - chunkb.length` when both values are falsy (zero) and
`chunkb.length - chunka.length` otherwise. -/
theorem loopStep_numeric_tie (a b : List Char) (v : Int)
    (ha : jsStrToNum (chunkOf a) = .fin v) (hb : jsStrToNum (chunkOf b) = .fin v)
    (hlen : (chunkOf a).length ≠ (chunkOf b).length) :
    loopStep a b = Sum.inl (.fin (if v = 0
      then ((chunkOf a).length : Int) - ((chunkOf b).length : Int)
      else ((chunkOf b).length : Int) - ((chunkOf a).length : Int))) := by
  simp only [loopStep, ha, hb, jsSub, sub_self, jsTruthy_fin]
  by_cases hv : v = 0 <;> simp [hv, hlen]

theorem naturalLoop_succ_inl (fuel : Nat) (a b : List Char) (r : JsVal)
    (ha : a ≠ []) (hb : b ≠ []) (hstep : loopStep a b = Sum.inl r) :
    naturalLoop (fuel + 1) a b = some r := by
  unfold naturalLoop
  simp [ha, hb, hstep]

/-- C1, counterexample: the claim asserts `comparator("a1","a01") > 0` is
false, but the source returns `chunkb.length - chunka.length = 1 > 0` for the
numeric tie `"1"` vs `"01"` (equal nonzero values, different digit counts);
and on the zero-valued tie `"0"` vs `"00"` the source returns
`chunka.length - chunkb.length = -1`, i.e. the shorter chunk sorts first,
not the longer one as the claim's zero rule states. -/
theorem c1_counterexample :
    naturalOrderComparator "a1" "a01" = JsVal.fin 1 ∧
    naturalOrderComparator "a0" "a00" = JsVal.fin (-1) := by decide

/-- C1, amended: on a numeric-chunk tie (both chunks numeric with the same
finite value `v`, different digit counts), the chunk with fewer characters
sorts first when both values are zero, and the chunk with more characters
sorts first when the common value is nonzero — the opposite pairing of the
claim; in particular `comparator("a1","a01") = 1 > 0`. -/
theorem c1_amended_tie_rule (a b : List Char) (v : Int) (fuel : Nat)
    (ha : a ≠ []) (hb : b ≠ [])
    (hva : jsStrToNum (chunkOf a) = .fin v) (hvb : jsStrToNum (chunkOf b) = .fin v)
    (hlen : (chunkOf a).length ≠ (chunkOf b).length) :
    naturalLoop (fuel + 1) a b = some (.fin (if v = 0
      then ((chunkOf a).length : Int) - ((chunkOf b).length : Int)
      else ((chunkOf b).length : Int) - ((chunkOf a).length : Int))) :=
  naturalLoop_succ_inl fuel a b _ ha hb (loopStep_numeric_tie a b v hva hvb hlen)

/-- Witness for C1's amended rule at the zero-valued tie `"0"` vs `"00"`:
fewer digits sort first (result `1 - 2 = -1`). -/
theorem c1_amended_tie_rule_witness :
    naturalLoop 1 "0".data "00".data = some (JsVal.fin (-1)) := by
  have h := c1_amended_tie_rule "0".data "00".data 0 0
    (by decide) (by decide) (by decide) (by decide) (by decide)
  simpa using h

/-- C5: on a numeric-chunk tie with the same nonzero value and different
digit counts, the source returns `chunkb.length - chunka.length`, so the
chunk with more digits sorts first; in particular
`comparator("v007","v07") = -1`, i.e. `"v007"` sorts before `"v07"`. -/
theorem c5_nonzero_tie :
    (∀ (a b : List Char) (v : Int) (fuel : Nat), a ≠ [] → b ≠ [] →
      jsStrToNum (chunkOf a) = .fin v → jsStrToNum (chunkOf b) = .fin v →
      v ≠ 0 → (chunkOf a).length ≠ (chunkOf b).length →
      naturalLoop (fuel + 1) a b =
        some (.fin (((chunkOf b).length : Int) - ((chunkOf a).length : Int)))) ∧
    naturalOrderComparator "v007" "v07" = JsVal.fin (-1) := by
  constructor
  · intro a b v fuel ha hb hva hvb hv hlen
    have h := naturalLoop_succ_inl fuel a b _ ha hb (loopStep_numeric_tie a b v hva hvb hlen)
    simpa [hv] using h
  · decide

/-- Witness for C5 at the nonzero tie `"007"` vs `"07"`: more digits sort
first (result `2 - 3 = -1`). -/
theorem c5_nonzero_tie_witness :
    naturalLoop 1 "007".data "07".data = some (JsVal.fin (-1)) := by
  have h := c5_nonzero_tie.1 "007".data "07".data 7 0
    (by decide) (by decide) (by decide) (by decide) (by decide) (by decide)
  simpa using h

/-- The chunk regex matches at least one character of a nonempty string. -/
theorem chunkOf_length_pos (a : List Char) (ha : a ≠ []) : 0 < (chunkOf a).length := by
  match a with
  | c :: t =>
    by_cases hd : c.isDigit <;> simp [chunkOf, hd, List.takeWhile_cons]

/-- The loop continues only with the remainders after consuming both chunks. -/
theorem loopStep_inr (a b : List Char) (p : List Char × List Char)
    (h : loopStep a b = Sum.inr p) :
    p = (a.drop (chunkOf a).length, b.drop (chunkOf b).length) := by
  simp only [loopStep] at h
  split_ifs at h <;> simp_all

/-- Consuming a chunk strictly shrinks a nonempty string. -/
theorem length_drop_chunk_lt (a : List Char) (ha : a ≠ []) :
    (a.drop (chunkOf a).length).length < a.length := by
  rw [List.length_drop]
  have h1 := chunkOf_length_pos a ha
  have h2 : 0 < a.length := List.length_pos.mpr ha
  omega

/-- With fuel beyond the combined length, the fuel does not matter. -/
theorem naturalLoop_fuel_eq (f : Nat) : ∀ (g : Nat) (a b : List Char),
    a.length + b.length < f → a.length + b.length < g →
    naturalLoop f a b = naturalLoop g a b := by
  induction f using Nat.strong_induction_on with
  | _ f ih =>
    intro g a b hf hg
    obtain ⟨f', rfl⟩ : ∃ f', f = f' + 1 := ⟨f - 1, by omega⟩
    obtain ⟨g', rfl⟩ : ∃ g', g = g' + 1 := ⟨g - 1, by omega⟩
    unfold naturalLoop
    by_cases ha : a = []
    · simp [ha]
    by_cases hb : b = []
    · simp [ha, hb]
    simp only [ha, hb, if_false]
    cases hstep : loopStep a b with
    | inl r => rfl
    | inr p =>
      obtain ⟨a', b'⟩ := p
      have hp := loopStep_inr a b (a', b') hstep
      have ha' : a' = a.drop (chunkOf a).length := congrArg Prod.fst hp
      have hb' : b' = b.drop (chunkOf b).length := congrArg Prod.snd hp
      have hlta : a'.length < a.length := ha' ▸ length_drop_chunk_lt a ha
      have hltb : b'.length < b.length := hb' ▸ length_drop_chunk_lt b hb
      exact ih f' (by omega) g' a' b' (by omega) (by omega)

/-- With fuel beyond the combined length, the loop returns a value. -/
theorem naturalLoop_isSome (f : Nat) : ∀ (a b : List Char),
    a.length + b.length < f → (naturalLoop f a b).isSome := by
  induction f using Nat.strong_induction_on with
  | _ f ih =>
    intro a b hf
    obtain ⟨f', rfl⟩ : ∃ f', f = f' + 1 := ⟨f - 1, by omega⟩
    unfold naturalLoop
    by_cases ha : a = []
    · by_cases hb : b = [] <;> simp [ha, hb]
    by_cases hb : b = []
    · simp [ha, hb]
    simp only [ha, hb, if_false]
    cases hstep : loopStep a b with
    | inl r => rfl
    | inr p =>
      obtain ⟨a', b'⟩ := p
      have hp := loopStep_inr a b (a', b') hstep
      have ha' : a' = a.drop (chunkOf a).length := congrArg Prod.fst hp
      have hb' : b' = b.drop (chunkOf b).length := congrArg Prod.snd hp
      have hlta : a'.length < a.length := ha' ▸ length_drop_chunk_lt a ha
      have hltb : b'.length < b.length := hb' ▸ length_drop_chunk_lt b hb
      exact ih f' (by omega) a' b' (by omega)

/-- C10, counterexample: the comparator does not return an integer for every
pair of input strings.  On `("Infinity", " ")` both chunks pass the `isNaN`
test (`Number("Infinity") = Infinity`, `Number(" ") = 0`), so the source
computes `diff = "Infinity" - " " = Infinity`, which is truthy and returned:
the result is `+Infinity`, not an integer (`JsVal.pinf`, not `JsVal.fin z`
for any `z`). -/
theorem c10_counterexample :
    naturalOrderComparator "Infinity" " " = JsVal.pinf := by decide

/-- C10, amended: `naturalOrderComparator` terminates and returns a defined
JavaScript number (an integer except when a numeric chunk's value is
infinite, as for digit-free chunks like `"Infinity"`) on every pair of input
strings — every iteration of its unbounded loop either returns or strictly
shrinks both remaining strings (the chunk regex consumes at least one
character of each), so fuel one beyond the combined length already yields the
final value and any larger fuel agrees. -/
theorem c10_loop_terminates (a b : String) (k : Nat) :
    naturalLoop (a.data.length + b.data.length + 1 + k) a.data b.data =
      some (naturalCompare a.data b.data) := by
  have h1 : (naturalLoop (a.data.length + b.data.length + 1) a.data b.data).isSome :=
    naturalLoop_isSome _ _ _ (by omega)
  have h2 := naturalLoop_fuel_eq (a.data.length + b.data.length + 1 + k)
    (a.data.length + b.data.length + 1) a.data b.data (by omega) (by omega)
  rw [h2, naturalCompare]
  obtain ⟨r, hr⟩ := Option.isSome_iff_exists.mp h1
  rw [hr]
  rfl

/-! ## Lemmas about the column layout -/

theorem toInt32_eq_self (n : Int) (h1 : -2 ^ 31 ≤ n) (h2 : n < 2 ^ 31) :
    toInt32 n = n := by
  unfold toInt32
  omega

theorem ratTrunc_of_nonneg (q : ℚ) (h : 0 ≤ q) : ratTrunc q = ⌊q⌋ := by
  simp [ratTrunc, h]

theorem ratTrunc_intCast (n : Int) : ratTrunc ((n : Int) : ℚ) = n := by
  by_cases h : (0 : ℚ) ≤ (n : ℚ)
  · rw [ratTrunc_of_nonneg _ h, Int.floor_intCast]
  · have : -((n : Int) : ℚ) = ((-n : Int) : ℚ) := by push_cast; ring
    rw [ratTrunc, if_neg h, this, Int.floor_intCast, neg_neg]

theorem jsOr0_intCast (n : Int) : jsOr0 ((n : Int) : ℚ) = toInt32 n := by
  rw [jsOr0, ratTrunc_intCast]

theorem jsOr0_eq_floor (q : ℚ) (h0 : 0 ≤ q) (h31 : q < 2 ^ 31) : jsOr0 q = ⌊q⌋ := by
  rw [jsOr0, ratTrunc_of_nonneg q h0]
  apply toInt32_eq_self
  · have := Int.floor_nonneg.mpr h0
    omega
  · have hle : (⌊q⌋ : ℚ) ≤ q := Int.floor_le q
    have : (⌊q⌋ : ℚ) < ((2 ^ 31 : Int) : ℚ) := by push_cast; linarith
    exact_mod_cast this

theorem jsOr0_le_jsOr0 (p q : ℚ) (hp : 0 ≤ p) (hpq : p ≤ q) (hq : q < 2 ^ 31) :
    jsOr0 p ≤ jsOr0 q := by
  rw [jsOr0_eq_floor p hp (lt_of_le_of_lt hpq hq), jsOr0_eq_floor q (le_trans hp hpq) hq]
  exact Int.floor_mono hpq

/-- Every emitted width is clamped to the 14 px floor. -/
theorem applyWeightsLoop_mem_ge (T : ℚ) (W : Int) :
    ∀ (ws : List ℚ) (sum : ℚ) (last : Int) (x : Int),
      x ∈ applyWeightsLoop T W ws sum last → 14 ≤ x := by
  intro ws
  induction ws with
  | nil =>
    intro sum last x hx
    simp [applyWeightsLoop] at hx
  | cons w ws ih =>
    intro sum last x hx
    simp only [applyWeightsLoop, List.mem_cons] at hx
    rcases hx with h | h
    · rw [h]; exact le_max_right _ _
    · exact ih _ _ x h

/-- Telescoping: the widths sum to at least the final offset minus the
starting offset (each width is at least its offset delta). -/
theorem applyWeightsLoop_sum_ge (T : ℚ) (W : Int) :
    ∀ (ws : List ℚ) (sum : ℚ) (last : Int), ws ≠ [] →
      jsOr0 ((sum + ws.sum) * (W : ℚ) / T) - last ≤
        (applyWeightsLoop T W ws sum last).sum := by
  intro ws
  induction ws with
  | nil => intro _ _ h; exact absurd rfl h
  | cons w ws ih =>
    intro sum last _
    by_cases hws : ws = []
    · subst hws
      simp only [applyWeightsLoop, List.sum_cons, List.sum_nil, add_zero]
      have h := le_max_left (jsOr0 ((sum + w) * (W : ℚ) / T) - last) 14
      omega
    · have h := ih (sum + w) (jsOr0 ((sum + w) * (W : ℚ) / T)) hws
      simp only [applyWeightsLoop, List.sum_cons]
      have harr : sum + (w + ws.sum) = sum + w + ws.sum := by ring
      rw [harr]
      have hmax := le_max_left (jsOr0 ((sum + w) * (W : ℚ) / T) - last) 14
      omega

/-- Offsets never pass the container width while prefix sums stay below the
total weight. -/
theorem offset_arg_le (T : ℚ) (W : Int) (hT : 0 < T) (hW : 0 < W)
    (S : ℚ) (hS : 0 ≤ S) (hle : S ≤ T) :
    0 ≤ S * (W : ℚ) / T ∧ S * (W : ℚ) / T ≤ (W : ℚ) := by
  constructor
  · positivity
  · rw [div_le_iff₀ hT]
    have hW0 : (0 : ℚ) ≤ (W : ℚ) := by exact_mod_cast le_of_lt hW
    calc S * (W : ℚ) ≤ T * (W : ℚ) := mul_le_mul_of_nonneg_right hle hW0
    _ = (W : ℚ) * T := by ring

/-- Monotonicity of the emitted offsets for positive weights and an
in-range container width. -/
theorem offsetsLoop_chain (T : ℚ) (W : Int) (hT : 0 < T) (hW : 0 < W)
    (h31 : W < 2 ^ 31) :
    ∀ (ws : List ℚ) (sum : ℚ), (∀ w ∈ ws, 0 < w) → 0 ≤ sum → sum + ws.sum ≤ T →
      List.Chain' (· ≤ ·) (offsetsLoop T W ws sum) := by
  have hWq : (W : ℚ) < 2 ^ 31 := by exact_mod_cast h31
  intro ws
  induction ws with
  | nil => intro _ _ _ _; simp [offsetsLoop]
  | cons w ws ih =>
    intro sum hpos hsum hle
    have hw : 0 < w := hpos w (List.mem_cons_self w ws)
    have hpos' : ∀ x ∈ ws, 0 < x := fun x hx => hpos x (List.mem_cons_of_mem w hx)
    have hsum' : 0 ≤ sum + w := by linarith
    have hle' : sum + w + ws.sum ≤ T := by
      have : sum + (w :: ws).sum = sum + w + ws.sum := by
        simp [List.sum_cons]; ring
      linarith [hle, this.symm.le]
    simp only [offsetsLoop]
    apply List.chain'_cons'.mpr
    refine ⟨?_, ih (sum + w) hpos' hsum' hle'⟩
    intro y hy
    cases ws with
    | nil => simp [offsetsLoop] at hy
    | cons w' ws' =>
      simp only [offsetsLoop, List.head?_cons, Option.mem_def, Option.some.injEq] at hy
      subst hy
      have hw' : 0 < w' := hpos' w' (List.mem_cons_self w' ws')
      have hsum'' : (0 : ℚ) ≤ ws'.sum :=
        List.sum_nonneg fun x hx =>
          le_of_lt (hpos' x (List.mem_cons_of_mem w' hx))
      have hS2le : sum + w + w' ≤ T := by
        have : sum + w + (w' :: ws').sum = sum + w + w' + ws'.sum := by
          simp [List.sum_cons]; ring
        linarith [hle', this.symm.le]
      obtain ⟨hq0, hqW⟩ := offset_arg_le T W hT hW (sum + w + w')
        (by linarith) hS2le
      obtain ⟨hp0, _⟩ := offset_arg_le T W hT hW (sum + w) hsum'
        (by linarith)
      refine jsOr0_le_jsOr0 _ _ hp0 ?_ (lt_of_le_of_lt hqW hWq)
      have hmul : (sum + w) * (W : ℚ) ≤ (sum + w + w') * (W : ℚ) :=
        mul_le_mul_of_nonneg_right (by linarith)
          (by exact_mod_cast le_of_lt hW)
      exact div_le_div_of_nonneg_right hmul (le_of_lt hT)

/-- C2, counterexample: the claim quantifies over every positive weight
assignment and every container width above zero, but at
`tableWidth = 2^31` the `| 0` truncation (ECMAScript `ToInt32`) wraps the
final offset to `-2^31`, so the offsets are not monotone and the widths sum
to `2^30 + 14`, far below `2^31 - 2·slack`; and with zero columns the loop
emits nothing, so the width sum `0` is below `tableWidth - 0`. -/
theorem c2_counterexample :
    applyColumnOffsets [1, 1] (2 ^ 31) = [2 ^ 30, -(2 ^ 31)] ∧
    ¬ List.Chain' (· ≤ ·) (applyColumnOffsets [1, 1] (2 ^ 31)) ∧
    applyColumnWeights [1, 1] (2 ^ 31) = [2 ^ 30, 14] ∧
    ¬ ((2 ^ 31 : Int) - 2 * 1 ≤ (applyColumnWeights [1, 1] (2 ^ 31)).sum) ∧
    (applyColumnWeights [] 5).sum = 0 ∧
    ¬ ((5 : Int) - 0 * 1 ≤ (applyColumnWeights [] 5).sum) := by
  have e1 : ((0 : ℚ) + 1) * ((2 ^ 31 : Int) : ℚ) / ([(1 : ℚ), 1].sum) =
      ((2 ^ 30 : Int) : ℚ) := by
    push_cast
    norm_num
  have e2 : ((0 : ℚ) + 1 + 1) * ((2 ^ 31 : Int) : ℚ) / ([(1 : ℚ), 1].sum) =
      ((2 ^ 31 : Int) : ℚ) := by
    push_cast
    norm_num
  have j1 : jsOr0 (((0 : ℚ) + 1) * ((2 ^ 31 : Int) : ℚ) / ([(1 : ℚ), 1].sum)) =
      2 ^ 30 := by
    rw [e1, jsOr0_intCast]
    decide
  have j2 : jsOr0 (((0 : ℚ) + 1 + 1) * ((2 ^ 31 : Int) : ℚ) / ([(1 : ℚ), 1].sum)) =
      -(2 ^ 31) := by
    rw [e2, jsOr0_intCast]
    decide
  have hoff : applyColumnOffsets [1, 1] (2 ^ 31) = [2 ^ 30, -(2 ^ 31)] := by
    rw [applyColumnOffsets, if_neg (by norm_num)]
    simp only [offsetsLoop, j1, j2]
  have hwid : applyColumnWeights [1, 1] (2 ^ 31) = [2 ^ 30, 14] := by
    rw [applyColumnWeights, if_neg (by norm_num)]
    simp only [applyWeightsLoop, j1, j2]
    norm_num
  refine ⟨hoff, ?_, hwid, ?_, ?_, ?_⟩
  · rw [hoff]
    simp only [List.chain'_cons, List.chain'_singleton, and_true]
    intro h
    omega
  · rw [hwid]
    norm_num
  · simp [applyColumnWeights, applyWeightsLoop]
  · simp [applyColumnWeights, applyWeightsLoop]

/-- C2, amended: for positive weights on at least one column and a container
width strictly between `0` and `2^31` (so the 32-bit `| 0` truncation never
wraps), every emitted column width is at least 14 px, the running offsets are
a monotonically non-decreasing sequence of integers, and the widths sum to at
least the container width minus the number of columns times a 1 px rounding
slack (in fact to at least the container width itself). -/
theorem c2_amended (weights : List ℚ) (W : Int)
    (hw : ∀ w ∈ weights, 0 < w) (hne : weights ≠ [])
    (h0 : 0 < W) (h31 : W < 2 ^ 31) :
    (∀ x ∈ applyColumnWeights weights W, 14 ≤ x) ∧
    List.Chain' (· ≤ ·) (applyColumnOffsets weights W) ∧
    W - (weights.length : Int) * 1 ≤ (applyColumnWeights weights W).sum := by
  have hT : 0 < weights.sum := List.sum_pos weights hw hne
  have hWne : ¬ W ≤ 0 := by omega
  refine ⟨?_, ?_, ?_⟩
  · intro x hx
    rw [applyColumnWeights, if_neg hWne] at hx
    exact applyWeightsLoop_mem_ge _ _ _ _ _ x hx
  · rw [applyColumnOffsets, if_neg hWne]
    exact offsetsLoop_chain weights.sum W hT h0 h31 weights 0 hw le_rfl
      (by simp)
  · rw [applyColumnWeights, if_neg hWne]
    have h := applyWeightsLoop_sum_ge weights.sum W weights 0 0 hne
    have harg : ((0 : ℚ) + weights.sum) * (W : ℚ) / weights.sum = ((W : Int) : ℚ) := by
      rw [zero_add, mul_comm, mul_div_assoc, div_self (ne_of_gt hT), mul_one]
    rw [harg, jsOr0_intCast, toInt32_eq_self W (by omega) h31, sub_zero] at h
    have : (0 : Int) ≤ (weights.length : Int) := Int.ofNat_nonneg _
    omega

/-- Witness for C2's amended theorem at weights `[1, 1]`, width 28. -/
theorem c2_amended_witness :
    (∀ x ∈ applyColumnWeights [1, 1] 28, 14 ≤ x) ∧
    List.Chain' (· ≤ ·) (applyColumnOffsets [1, 1] 28) ∧
    (28 : Int) - (([(1 : ℚ), 1].length : Int)) * 1 ≤ (applyColumnWeights [1, 1] 28).sum :=
  c2_amended [1, 1] 28 (by norm_num) (by simp) (by norm_num) (by norm_num)

/-- The width loop is the pairwise clamped difference of consecutive emitted
offsets, seeded with the incoming `lastOffset`: in particular a clamped
(squeezed) width never feeds back into later offsets. -/
theorem applyWeightsLoop_eq_zipWith (T : ℚ) (W : Int) :
    ∀ (ws : List ℚ) (sum : ℚ) (last : Int),
      applyWeightsLoop T W ws sum last =
        List.zipWith (fun prev cur => max (cur - prev) 14)
          (last :: offsetsLoop T W ws sum) (offsetsLoop T W ws sum) := by
  intro ws
  induction ws with
  | nil => intro sum last; simp [applyWeightsLoop, offsetsLoop]
  | cons w ws ih =>
    intro sum last
    simp only [applyWeightsLoop, offsetsLoop, List.zipWith_cons_cons]
    rw [ih (sum + w) (jsOr0 ((sum + w) * (W : ℚ) / T))]

/-- In range (positive weights, `0 < W < 2^31`), the emitted offsets are the
untruncated floors of the prefix-weight targets. -/
theorem offsetsLoop_eq_floor (T : ℚ) (W : Int) (hT : 0 < T) (hW : 0 < W)
    (h31 : W < 2 ^ 31) :
    ∀ (ws : List ℚ) (sum : ℚ), (∀ w ∈ ws, 0 < w) → 0 ≤ sum → sum + ws.sum ≤ T →
      offsetsLoop T W ws sum =
        (List.range ws.length).map
          (fun i => ⌊(sum + (ws.take (i + 1)).sum) * (W : ℚ) / T⌋) := by
  have hWq : (W : ℚ) < 2 ^ 31 := by exact_mod_cast h31
  intro ws
  induction ws with
  | nil => intro sum _ _ _; simp [offsetsLoop]
  | cons w ws ih =>
    intro sum hpos hsum hle
    have hw : 0 < w := hpos w (List.mem_cons_self w ws)
    have hpos' : ∀ x ∈ ws, 0 < x := fun x hx => hpos x (List.mem_cons_of_mem w hx)
    have hws_nonneg : (0 : ℚ) ≤ ws.sum :=
      List.sum_nonneg fun x hx => le_of_lt (hpos' x hx)
    have hle' : sum + w + ws.sum ≤ T := by
      have : sum + (w :: ws).sum = sum + w + ws.sum := by
        simp [List.sum_cons]; ring
      linarith [hle, this.symm.le]
    have hhead : jsOr0 ((sum + w) * (W : ℚ) / T) =
        ⌊(sum + ((w :: ws).take (0 + 1)).sum) * (W : ℚ) / T⌋ := by
      have harg : sum + ((w :: ws).take (0 + 1)).sum = sum + w := by simp
      rw [harg]
      obtain ⟨hq0, hqW⟩ := offset_arg_le T W hT hW (sum + w) (by linarith)
        (by linarith)
      exact jsOr0_eq_floor _ hq0 (lt_of_le_of_lt hqW hWq)
    have htail : offsetsLoop T W ws (sum + w) =
        List.map ((fun i => ⌊(sum + ((w :: ws).take (i + 1)).sum) * (W : ℚ) / T⌋)
          ∘ Nat.succ) (List.range ws.length) := by
      rw [ih (sum + w) hpos' (by linarith) hle']
      apply List.map_congr_left
      intro i _
      simp only [Function.comp_apply, Nat.succ_eq_add_one]
      have : sum + ((w :: ws).take (i + 1 + 1)).sum = sum + w + (ws.take (i + 1)).sum := by
        rw [List.take_succ_cons, List.sum_cons]
        ring
      rw [this]
    simp only [offsetsLoop, List.length_cons, List.range_succ_eq_map, List.map_cons,
      List.map_map]
    rw [hhead, htail]

/-- C3: each emitted width is
`max(floor(prefix_i·W/total) - floor(prefix_{i-1}·W/total), 14)` — the next
column's offset always comes from the unadjusted floor target, never from the
previous offset plus a clamped width. -/
theorem c3_width_formula (weights : List ℚ) (W : Int)
    (hw : ∀ w ∈ weights, 0 < w) (h0 : 0 < W) (h31 : W < 2 ^ 31) :
    applyColumnWeights weights W =
      List.zipWith (fun prev cur => max (cur - prev) 14)
        (0 :: targetOffsets weights W) (targetOffsets weights W) := by
  by_cases hnil : weights = []
  · subst hnil
    simp [applyColumnWeights, applyWeightsLoop, targetOffsets]
  · have hT : 0 < weights.sum := List.sum_pos weights hw hnil
    rw [applyColumnWeights, if_neg (by omega)]
    rw [applyWeightsLoop_eq_zipWith]
    have hoff : offsetsLoop weights.sum W weights 0 = targetOffsets weights W := by
      rw [offsetsLoop_eq_floor weights.sum W hT h0 h31 weights 0 hw le_rfl (by simp)]
      unfold targetOffsets
      apply List.map_congr_left
      intro i _
      rw [zero_add]
    rw [hoff]

/-- Witness for C3 at weights `[1, 2, 1]`, width 100. -/
theorem c3_width_formula_witness :
    applyColumnWeights [1, 2, 1] 100 =
      List.zipWith (fun prev cur => max (cur - prev) 14)
        (0 :: targetOffsets [1, 2, 1] 100) (targetOffsets [1, 2, 1] 100) :=
  c3_width_formula [1, 2, 1] 100 (by norm_num) (by norm_num) (by norm_num)

/-! ## Weight inference runs at most once -/

theorem updateWeights_initialized (st : GridWeights) (w : Nat) (th : Nat → Nat)
    (hw : w ≠ 0) : (updateWeights st w th).columnWidthsInitialized = true := by
  cases h : st.columnWidthsInitialized <;> simp [updateWeights, h, hw]

theorem updateWeights_of_initialized (st : GridWeights) (w : Nat) (th : Nat → Nat)
    (h : st.columnWidthsInitialized = true) : updateWeights st w th = st := by
  simp [updateWeights, h]

theorem runUpdates_of_initialized (events : List (Nat × (Nat → Nat)))
    (st : GridWeights) (h : st.columnWidthsInitialized = true) :
    runUpdates events st = st := by
  induction events with
  | nil => rfl
  | cons e es ih =>
    show runUpdates es (updateWeights st e.1 e.2) = st
    rw [updateWeights_of_initialized st e.1 e.2 h, ih]

/-- C4: once an `updateWeights` call observes a non-zero container width, the
`columnWidthsInitialized` flag is set and every later call — any sequence of
further resize events, with any measured widths — leaves the grid state
(hence every column's inferred weight) unchanged. -/
theorem c4_inference_once (st : GridWeights) (w : Nat) (th : Nat → Nat)
    (events : List (Nat × (Nat → Nat))) (hw : w ≠ 0) :
    runUpdates events (updateWeights st w th) = updateWeights st w th :=
  runUpdates_of_initialized events _ (updateWeights_initialized st w th hw)

/-- Witness for C4: a fresh two-column grid, first measurement at width 200,
then a resize to width 300 with different header widths. -/
theorem c4_inference_once_witness :
    (200 : Nat) ≠ 0 ∧
    runUpdates [(300, fun _ => 7)]
        (updateWeights ⟨false, [none, some 5]⟩ 200 (fun _ => 50)) =
      updateWeights ⟨false, [none, some 5]⟩ 200 (fun _ => 50) :=
  ⟨by decide,
    c4_inference_once ⟨false, [none, some 5]⟩ 200 (fun _ => 50)
      [(300, fun _ => 7)] (by decide)⟩

/-! ## Sort direction by argument swap -/

/-- C6: ascending applies the effective comparator as `c a b`, descending
applies it argument-swapped as `c b a`; it is not the negation — there is a
comparator and a pair where the swapped application differs from `-(c a b)`. -/
theorem c6_descending_swaps_arguments :
    (∀ (α : Type) (c : α → α → Int) (a b : α),
      sortCompare c true a b = c a b ∧ sortCompare c false a b = c b a) ∧
    (∃ (c : Int → Int → Int) (a b : Int), sortCompare c false a b ≠ -(c a b)) := by
  constructor
  · intro α c a b
    exact ⟨rfl, rfl⟩
  · exact ⟨fun _ _ => 1, 0, 0, by decide⟩

/-! ## Header click toggling -/

/-- A JS comparator sort yields a list sorted by `cmp · · ≤ 0` whenever the
comparator is total and transitive in that sense. -/
theorem jsSort_sorted {β : Type} (c : β → β → Int) (l : List β)
    (ht : ∀ a b, c a b ≤ 0 ∨ c b a ≤ 0)
    (htr : ∀ a b d, c a b ≤ 0 → c b d ≤ 0 → c a d ≤ 0) :
    List.Sorted (fun a b => c a b ≤ 0) (jsSort c l) := by
  haveI : IsTotal β (fun a b => c a b ≤ 0) := ⟨ht⟩
  haveI : IsTrans β (fun a b => c a b ≤ 0) := ⟨htr⟩
  exact List.sorted_insertionSort _ l

/-- C7, counterexample: rows `[1, 2]` (already in ascending order), default
state, two clicks on sortable column 0 with comparator `a - b`: the rows end
in descending order `[2, 1]`, not back in ascending order. -/
theorem c7_counterexample :
    (clickHeader (fun (r : Int) _ => r) (fun _ a b => a - b) 0
      (clickHeader (fun (r : Int) _ => r) (fun _ a b => a - b) 0
        ⟨fun _ => none, [1, 2]⟩)).nodes = [2, 1] ∧
    ([2, 1] : List Int) ≠ [1, 2] := by
  constructor
  · decide
  · decide

/-- C7, amended: a click on a header whose `data-order` is not `descending`
sorts ascending and marks it `descending`; the next click on the same header
sorts descending and marks it `ascending`, so two clicks leave the rows in
descending order and a third click restores ascending order (for a total,
transitive comparator); every other header's `data-order` is cleared, so a
different column's next activation starts from the ascending context. -/
theorem c7_amended_toggle {ρ α : Type} (data : ρ → Nat → α)
    (cmp : Nat → α → α → Int) (id : Nat) (st : GridSortState ρ)
    (htot : ∀ a b, cmp id a b ≤ 0 ∨ cmp id b a ≤ 0)
    (htrans : ∀ a b c, cmp id a b ≤ 0 → cmp id b c ≤ 0 → cmp id a c ≤ 0)
    (hfresh : st.orders id ≠ some SortOrder.descending) :
    (∀ i, i ≠ id → (clickHeader data cmp id st).orders i = none) ∧
    (clickHeader data cmp id st).orders id = some SortOrder.descending ∧
    (clickHeader data cmp id (clickHeader data cmp id st)).orders id =
      some SortOrder.ascending ∧
    List.Sorted (fun a b => cmp id (data a id) (data b id) ≤ 0)
      (clickHeader data cmp id st).nodes ∧
    List.Sorted (fun a b => cmp id (data b id) (data a id) ≤ 0)
      (clickHeader data cmp id (clickHeader data cmp id st)).nodes ∧
    List.Sorted (fun a b => cmp id (data a id) (data b id) ≤ 0)
      (clickHeader data cmp id (clickHeader data cmp id
        (clickHeader data cmp id st))).nodes := by
  have hasc1 : decide (st.orders id ≠ some SortOrder.descending) = true :=
    decide_eq_true hfresh
  set s1 := clickHeader data cmp id st with hs1
  have ho1 : s1.orders id = some SortOrder.descending := by
    rw [hs1]; simp [clickHeader, hasc1]
  set s2 := clickHeader data cmp id s1 with hs2
  have ho2 : s2.orders id = some SortOrder.ascending := by
    rw [hs2]; simp [clickHeader, ho1]
  set s3 := clickHeader data cmp id s2 with hs3
  refine ⟨?_, ho1, ho2, ?_, ?_, ?_⟩
  · intro i hi
    rw [hs1]; simp [clickHeader, hi]
  · rw [hs1]
    simp only [clickHeader, hasc1, if_true]
    simpa [sortCompare] using
      jsSort_sorted (fun a b => cmp id (data a id) (data b id)) st.nodes
        (fun a b => htot (data a id) (data b id))
        (fun a b d h1 h2 => htrans (data a id) (data b id) (data d id) h1 h2)
  · rw [hs2]
    simp only [clickHeader, ho1]
    simpa [sortCompare] using
      jsSort_sorted (fun a b => cmp id (data b id) (data a id)) s1.nodes
        (fun a b => htot (data b id) (data a id))
        (fun a b d h1 h2 => htrans (data d id) (data b id) (data a id) h2 h1)
  · rw [hs3]
    simp only [clickHeader, ho2]
    simpa [sortCompare] using
      jsSort_sorted (fun a b => cmp id (data a id) (data b id)) s2.nodes
        (fun a b => htot (data a id) (data b id))
        (fun a b d h1 h2 => htrans (data a id) (data b id) (data d id) h1 h2)

/-- Witness for C7's amended theorem: rows `[2, 1]`, comparator `a - b`,
fresh header state; the first click marks column 0 descending. -/
theorem c7_amended_toggle_witness :
    ((⟨fun _ => none, [2, 1]⟩ : GridSortState Int).orders 0 ≠
      some SortOrder.descending) ∧
    (clickHeader (fun (r : Int) _ => r) (fun _ a b => a - b) 0
      ⟨fun _ => none, [2, 1]⟩).orders 0 = some SortOrder.descending :=
  ⟨by decide,
    (c7_amended_toggle (fun (r : Int) _ => r) (fun _ a b => a - b) 0
      ⟨fun _ => none, [2, 1]⟩
      (fun a b => by show a - b ≤ 0 ∨ b - a ≤ 0; omega)
      (fun a b c h1 h2 => by
        show a - c ≤ 0
        have e1 : a - b ≤ 0 := h1
        have e2 : b - c ≤ 0 := h2
        omega) (by decide)).2.1⟩

/-! ## Menu positioning -/

/-- C8: the horizontal placement flips to `x - width - parentWidth` when the
space to the right is short of the clamped width and the space left of the
parent's edge exceeds it (`winWidth - x < width ∧ x - parentWidth >
winWidth - x`, `width` being the clamped width the same call computes, namely
`min winWidth (offsetWidth + overflow)`), and stays at the anchor `x`
otherwise. -/
theorem c8_horizontal_flip (x y winWidth winHeight scrollbarSize offsetWidth offsetHeight : Int)
    (parent : Option Int) :
    ((winWidth - x <
          (positionContent x y winWidth winHeight scrollbarSize offsetWidth offsetHeight
            parent).width ∧
        x - parent.getD 0 > winWidth - x) →
      (positionContent x y winWidth winHeight scrollbarSize offsetWidth offsetHeight
          parent).left =
        x - (positionContent x y winWidth winHeight scrollbarSize offsetWidth offsetHeight
          parent).width - parent.getD 0) ∧
    (¬(winWidth - x <
          (positionContent x y winWidth winHeight scrollbarSize offsetWidth offsetHeight
            parent).width ∧
        x - parent.getD 0 > winWidth - x) →
      (positionContent x y winWidth winHeight scrollbarSize offsetWidth offsetHeight
          parent).left = x) := by
  have h : (positionContent x y winWidth winHeight scrollbarSize offsetWidth offsetHeight
      parent).left =
    if winWidth - x <
        (positionContent x y winWidth winHeight scrollbarSize offsetWidth offsetHeight
          parent).width ∧
       x - parent.getD 0 > winWidth - x
    then x - (positionContent x y winWidth winHeight scrollbarSize offsetWidth offsetHeight
        parent).width - parent.getD 0
    else x := rfl
  constructor
  · intro hc
    rw [h, if_pos hc]
  · intro hc
    rw [h, if_neg hc]

/-- Witness for C8: anchor `x = 90` near the right edge of a 100 px viewport,
natural size 50×50, no parent: the menu flips left to `left = 40`. -/
theorem c8_horizontal_flip_witness :
    ((100 : Int) - 90 <
        (positionContent 90 10 100 100 7 50 50 none).width ∧
      (90 : Int) - (none : Option Int).getD 0 > 100 - 90) ∧
    (positionContent 90 10 100 100 7 50 50 none).left =
      90 - (positionContent 90 10 100 100 7 50 50 none).width -
        (none : Option Int).getD 0 :=
  ⟨by decide, (c8_horizontal_flip 90 10 100 100 7 50 50 none).1 (by decide)⟩

/-! ## Submenu invariant -/

theorem hideSubMenu_closed (st : MenuState) (h : menuInv st) :
    hideSubMenu st = { subMenu := none, attached := [] } := by
  obtain ⟨hlen, hmem⟩ := h
  cases hst : st.subMenu with
  | none =>
    have hnil : st.attached = [] := by
      cases hatt : st.attached with
      | nil => rfl
      | cons x t =>
        have := hmem x (by rw [hatt]; exact List.mem_cons_self x t)
        rw [hst] at this
        exact absurd this (by simp)
    cases st
    simp_all [hideSubMenu]
  | some m =>
    have hnil : st.attached.erase m = [] := by
      cases hatt : st.attached with
      | nil => rfl
      | cons x t =>
        have hx := hmem x (by rw [hatt]; exact List.mem_cons_self x t)
        rw [hst] at hx
        have hxm : m = x := by injection hx
        cases t with
        | nil => rw [hxm, List.erase_cons_head]
        | cons y u => rw [hatt] at hlen; simp at hlen
    simp [hideSubMenu, hst, hnil]

theorem menuInv_preserved (e : Option Nat) (st : MenuState) (h : menuInv st) :
    menuInv (mouseOverItem e st) := by
  cases e with
  | none =>
    show menuInv (hideSubMenu st)
    rw [hideSubMenu_closed st h]
    exact ⟨by simp, by simp⟩
  | some m =>
    show menuInv (showSubMenu m (if st.subMenu ≠ some m then hideSubMenu st else st))
    by_cases hsub : st.subMenu = some m
    · rw [if_neg (by simpa using hsub)]
      obtain ⟨hlen, hmem⟩ := h
      have hnil : st.attached.erase m = [] := by
        cases hatt : st.attached with
        | nil => rfl
        | cons x t =>
          have hx := hmem x (by rw [hatt]; exact List.mem_cons_self x t)
          rw [hsub] at hx
          have hxm : m = x := by injection hx
          cases t with
          | nil => rw [hxm, List.erase_cons_head]
          | cons y u => rw [hatt] at hlen; simp at hlen
      refine ⟨?_, ?_⟩ <;> simp [showSubMenu, hnil]
    · rw [if_pos hsub, hideSubMenu_closed st h]
      refine ⟨?_, ?_⟩ <;> simp [showSubMenu]

theorem menuInv_foldl (events : List (Option Nat)) :
    ∀ (st : MenuState), menuInv st →
      menuInv (events.foldl (fun st e => mouseOverItem e st) st) := by
  induction events with
  | nil => intro st h; exact h
  | cons e es ih =>
    intro st h
    exact ih (mouseOverItem e st) (menuInv_preserved e st h)

/-- C9: in every state reachable by hover events from a freshly shown menu,
at most one child submenu is attached and it is the referenced one; hovering
an item with a different submenu than the open one first hides the open
submenu and then shows the new one (`showSubMenu ∘ hideSubMenu`); hovering an
item without a submenu hides the open submenu; and the previously open
submenu is no longer attached afterwards. -/
theorem c9_submenu_exclusive :
    (∀ events : List (Option Nat),
      (runMouse events).attached.length ≤ 1 ∧
      ∀ m ∈ (runMouse events).attached, (runMouse events).subMenu = some m) ∧
    (∀ (st : MenuState) (m : Nat), st.subMenu ≠ some m →
      mouseOverItem (some m) st = showSubMenu m (hideSubMenu st)) ∧
    (∀ st : MenuState, mouseOverItem none st = hideSubMenu st) ∧
    (∀ (st : MenuState) (m m' : Nat), menuInv st → st.subMenu = some m' →
      m' ≠ m → m' ∉ (mouseOverItem (some m) st).attached) := by
  refine ⟨?_, ?_, ?_, ?_⟩
  · intro events
    exact menuInv_foldl events menuInit ⟨by simp [menuInit], by simp [menuInit]⟩
  · intro st m h
    simp [mouseOverItem, h]
  · intro st
    rfl
  · intro st m m' hinv hsub hne
    have hne' : st.subMenu ≠ some m := by
      rw [hsub]
      simpa using hne
    have heq : mouseOverItem (some m) st = showSubMenu m (hideSubMenu st) := by
      simp [mouseOverItem, hne']
    rw [heq, hideSubMenu_closed st hinv]
    simp [showSubMenu]
    omega

/-- Witness for C9: hovering an item whose submenu (5) differs from the
currently referenced one (none) routes through hide-then-show. -/
theorem c9_submenu_exclusive_witness :
    mouseOverItem (some 5) menuInit = showSubMenu 5 (hideSubMenu menuInit) :=
  c9_submenu_exclusive.2.1 menuInit 5 (by decide)

end LunaUI
